import Mathlib

/-!
Verification of the ForgetYourPassword password-derivation core.

The definitions below are a shallow embedding of `src/password_generator.py`
and `src/core.py`.  Python byte strings are modelled as `List Nat` (each
entry a byte value), Python text strings as `List Char`, and Python's
arbitrary-precision integers as `Int`/`Nat` with explicit `% 2 ^ 32` where
the underlying algorithm works on 32-bit words.  The library primitives the
code calls (`hashlib.sha256`, PBKDF2-HMAC-SHA256 from the `cryptography`
package) are embedded as executable Lean functions implementing the same
standard algorithms.
-/

namespace FYP

/-! ### 32-bit word primitives (SHA-256 building blocks) -/

/-- Right rotation of a 32-bit word represented as a `Nat`. -/
def rotr (n x : Nat) : Nat :=
  ((x >>> n) ||| (x <<< (32 - n))) % 2 ^ 32

/-- Bitwise complement of a 32-bit word. -/
def notW (x : Nat) : Nat := x ^^^ (2 ^ 32 - 1)

def bsig0 (x : Nat) : Nat := rotr 2 x ^^^ rotr 13 x ^^^ rotr 22 x

def bsig1 (x : Nat) : Nat := rotr 6 x ^^^ rotr 11 x ^^^ rotr 25 x

def ssig0 (x : Nat) : Nat := rotr 7 x ^^^ rotr 18 x ^^^ (x >>> 3)

def ssig1 (x : Nat) : Nat := rotr 17 x ^^^ rotr 19 x ^^^ (x >>> 10)

def chW (x y z : Nat) : Nat := (x &&& y) ^^^ (notW x &&& z)

def majW (x y z : Nat) : Nat := (x &&& y) ^^^ (x &&& z) ^^^ (y &&& z)

/-- Big-endian 4-byte encoding of an integer (Python `to_bytes(4, 'big')`). -/
def be4 (n : Nat) : List Nat :=
  [n / 2 ^ 24 % 256, n / 2 ^ 16 % 256, n / 2 ^ 8 % 256, n % 256]

/-- Big-endian 8-byte encoding (used for the SHA-256 length field). -/
def be8 (n : Nat) : List Nat :=
  [n / 2 ^ 56 % 256, n / 2 ^ 48 % 256, n / 2 ^ 40 % 256, n / 2 ^ 32 % 256,
   n / 2 ^ 24 % 256, n / 2 ^ 16 % 256, n / 2 ^ 8 % 256, n % 256]

/-! ### SHA-256 -/

/-- The 64 SHA-256 round constants. -/
def K64 : List Nat :=
  [1116352408, 1899447441, 3049323471, 3921009573, 961987163,
   1508970993, 2453635748, 2870763221, 3624381080, 310598401,
   607225278, 1426881987, 1925078388, 2162078206, 2614888103,
   3248222580, 3835390401, 4022224774, 264347078, 604807628,
   770255983, 1249150122, 1555081692, 1996064986, 2554220882,
   2821834349, 2952996808, 3210313671, 3336571891, 3584528711,
   113926993, 338241895, 666307205, 773529912, 1294757372,
   1396182291, 1695183700, 1986661051, 2177026350, 2456956037,
   2730485921, 2820302411, 3259730800, 3345764771, 3516065817,
   3600352804, 4094571909, 275423344, 430227734, 506948616,
   659060556, 883997877, 958139571, 1322822218, 1537002063,
   1747873779, 1955562222, 2024104815, 2227730452, 2361852424,
   2428436474, 2756734187, 3204031479, 3329325298]

/-- The eight-word SHA-256 working state. -/
structure SHAState where
  a : Nat
  b : Nat
  c : Nat
  d : Nat
  e : Nat
  f : Nat
  g : Nat
  h : Nat
deriving Repr, DecidableEq

/-- Initial SHA-256 hash state. -/
def H0 : SHAState :=
  ⟨1779033703, 3144134277, 1013904242, 2773480762,
   1359893119, 2600822924, 528734635, 1541459225⟩

/-- One SHA-256 round; the pair carries `(round constant, schedule word)`. -/
def roundStep (s : SHAState) (kw : Nat × Nat) : SHAState :=
  let t1 := (s.h + bsig1 s.e + chW s.e s.f s.g + kw.1 + kw.2) % 2 ^ 32
  let t2 := (bsig0 s.a + majW s.a s.b s.c) % 2 ^ 32
  ⟨(t1 + t2) % 2 ^ 32, s.a, s.b, s.c, (s.d + t1) % 2 ^ 32, s.e, s.f, s.g⟩

/-- Group a byte list into big-endian 32-bit words (4 bytes per word). -/
def wordsOfBytes : List Nat → List Nat
  | b0 :: b1 :: b2 :: b3 :: rest =>
    (b0 * 2 ^ 24 + b1 * 2 ^ 16 + b2 * 2 ^ 8 + b3) :: wordsOfBytes rest
  | _ => []

/-- Extend the 16 message words to the 64-entry SHA-256 message schedule. -/
def schedule (w : List Nat) : List Nat :=
  (List.range 48).foldl
    (fun ws _ =>
      ws ++ [(ssig1 (ws.getD (ws.length - 2) 0) + ws.getD (ws.length - 7) 0 +
              ssig0 (ws.getD (ws.length - 15) 0) + ws.getD (ws.length - 16) 0) % 2 ^ 32])
    w

/-- Compress one 64-byte block into the hash state. -/
def compress (s : SHAState) (block : List Nat) : SHAState :=
  let t := (List.zip K64 (schedule (wordsOfBytes block))).foldl roundStep s
  ⟨(s.a + t.a) % 2 ^ 32, (s.b + t.b) % 2 ^ 32, (s.c + t.c) % 2 ^ 32,
   (s.d + t.d) % 2 ^ 32, (s.e + t.e) % 2 ^ 32, (s.f + t.f) % 2 ^ 32,
   (s.g + t.g) % 2 ^ 32, (s.h + t.h) % 2 ^ 32⟩

/-- SHA-256 padding: append `0x80`, zeros, and the 64-bit bit length. -/
def padMessage (msg : List Nat) : List Nat :=
  msg ++ 0x80 :: List.replicate ((64 - (msg.length + 9) % 64) % 64) 0 ++
    be8 (8 * msg.length)

/-- Split a byte list into consecutive 64-byte chunks. -/
def chunks64 (l : List Nat) : List (List Nat) :=
  if h : l = [] then [] else l.take 64 :: chunks64 (l.drop 64)
termination_by l.length
decreasing_by
  simp only [List.length_drop]
  have : 0 < l.length := List.length_pos.mpr h
  omega

/-- SHA-256 of a byte string, as 32 output bytes (models `hashlib.sha256`). -/
def sha256 (msg : List Nat) : List Nat :=
  let st := (chunks64 (padMessage msg)).foldl compress H0
  be4 st.a ++ be4 st.b ++ be4 st.c ++ be4 st.d ++
    be4 st.e ++ be4 st.f ++ be4 st.g ++ be4 st.h

theorem sha256_length (msg : List Nat) : (sha256 msg).length = 32 := by
  simp [sha256, be4]

theorem sha256_ne_nil (msg : List Nat) : sha256 msg ≠ [] := by
  intro h
  have := sha256_length msg
  rw [h] at this
  simp at this

/-! ### HMAC-SHA-256 and PBKDF2 (the primitives `_generate_pbkdf2` calls) -/

/-- Byte-wise xor of two equal-length byte strings. -/
def xorBytes (a b : List Nat) : List Nat :=
  List.zipWith (fun x y => x ^^^ y) a b

theorem xorBytes_length (a b : List Nat) :
    (xorBytes a b).length = min a.length b.length := by
  simp [xorBytes]

/-- HMAC with SHA-256 (block size 64 bytes). -/
def hmacSha256 (key msg : List Nat) : List Nat :=
  let k0 := if 64 < key.length then sha256 key else key
  let kp := k0 ++ List.replicate (64 - k0.length) 0
  sha256 ((kp.map fun b => b ^^^ 0x5c) ++ sha256 ((kp.map fun b => b ^^^ 0x36) ++ msg))

theorem hmacSha256_length (key msg : List Nat) :
    (hmacSha256 key msg).length = 32 := by
  simp [hmacSha256, sha256_length]

/-- One PBKDF2 block `T_i`: xor of the iterated HMAC chain `U_1, ..., U_c`. -/
def pbkdf2Block (pw salt : List Nat) (iters blockIndex : Nat) : List Nat :=
  let u1 := hmacSha256 pw (salt ++ be4 blockIndex)
  ((List.range (iters - 1)).foldl
    (fun acc _ =>
      let u := hmacSha256 pw acc.2
      (xorBytes acc.1 u, u))
    (u1, u1)).1

theorem pbkdf2Block_length (pw salt : List Nat) (iters blockIndex : Nat) :
    (pbkdf2Block pw salt iters blockIndex).length = 32 := by
  unfold pbkdf2Block
  have main :
      ∀ (l : List Nat) (acc : List Nat × List Nat),
        acc.1.length = 32 → acc.2.length = 32 →
        ((l.foldl (fun acc _ =>
            let u := hmacSha256 pw acc.2
            (xorBytes acc.1 u, u)) acc).1).length = 32 := by
    intro l
    induction l with
    | nil => intro acc h1 _; simpa using h1
    | cons x xs ih =>
      intro acc h1 h2
      refine ih _ ?_ ?_
      · simp [xorBytes_length, h1, hmacSha256_length]
      · simp [hmacSha256_length]
  exact main _ _ (hmacSha256_length _ _) (hmacSha256_length _ _)

/-- PBKDF2 with HMAC-SHA-256: concatenate blocks `T_1, T_2, ...` and take
`dkLen` bytes (models `PBKDF2HMAC(algorithm=SHA256, ...).derive`). -/
def pbkdf2HmacSha256 (pw salt : List Nat) (iters dkLen : Nat) : List Nat :=
  (((List.range ((dkLen + 31) / 32)).map
      fun i => pbkdf2Block pw salt iters (i + 1)).flatten).take dkLen

theorem pbkdf2HmacSha256_length_64 (pw salt : List Nat) (iters : Nat) :
    (pbkdf2HmacSha256 pw salt iters 64).length = 64 := by
  have h2 : (64 + 31) / 32 = 2 := by norm_num
  simp [pbkdf2HmacSha256, h2, List.range_succ, pbkdf2Block_length]

/-! ### Character sets from `password_generator.py` -/

def UPPERCASE_CHARS : List Char := "ABCDEFGHIJKLMNOPQRSTUVWXYZ".data

def LOWERCASE_CHARS : List Char := "abcdefghijklmnopqrstuvwxyz".data

def DIGIT_CHARS : List Char := "0123456789".data

def SYMBOL_CHARS : List Char := "!@#$%^&*()_+-=[]\x7b\x7d|;:,.<>?".data

def char_sets : List (List Char) :=
  [UPPERCASE_CHARS, LOWERCASE_CHARS, DIGIT_CHARS, SYMBOL_CHARS]

/-- `all_chars = "".join(char_sets)`: the 94-character combined alphabet. -/
def all_chars : List Char :=
  UPPERCASE_CHARS ++ LOWERCASE_CHARS ++ DIGIT_CHARS ++ SYMBOL_CHARS

/-! ### `_map_to_password`

The Python function mutates a list `password` and an index `key_index`; the
embedding threads them explicitly through the four steps.  Python compares
`len(password) < length` on signed integers; since `len(password) ≥ 0` this
is equivalent to `password.length < length.toNat`, which is the `Nat` bound
`L` used below. -/

/-- Step 1: one character from each character set, consuming one key byte
per set (guarded by `key_index < len(key_material)` as in the source). -/
def step1 (key_material : List Nat) : List Char × Nat :=
  char_sets.foldl
    (fun acc cs =>
      if acc.2 < key_material.length then
        (acc.1 ++ [cs.getD (key_material.getD acc.2 0 % cs.length) ' '], acc.2 + 1)
      else acc)
    ([], 0)

/-- Step 2: fill from `all_chars` while the buffer is short and key bytes
remain; returns the buffer and the final byte cursor. -/
def step2 (key_material : List Nat) (L : Nat) (pw : List Char) (ki : Nat) :
    List Char × Nat :=
  if pw.length < L ∧ ki < key_material.length then
    step2 key_material L
      (pw ++ [all_chars.getD (key_material.getD ki 0 % all_chars.length) ' '])
      (ki + 1)
  else (pw, ki)
termination_by key_material.length - ki
decreasing_by omega

/-- The inner `for byte_val in extended_key` loop of Step 3: append mapped
bytes, breaking as soon as the buffer reaches `L`. -/
def appendFromDigest (L : Nat) (pw : List Char) : List Nat → List Char
  | [] => pw
  | b :: rest =>
    if L ≤ pw.length then pw
    else appendFromDigest L (pw ++ [all_chars.getD (b % all_chars.length) ' ']) rest

theorem appendFromDigest_length_le (L : Nat) :
    ∀ (d : List Nat) (pw : List Char), pw.length ≤ L →
      (appendFromDigest L pw d).length ≤ L := by
  intro d
  induction d with
  | nil => intro pw h; simpa [appendFromDigest] using h
  | cons b rest ih =>
    intro pw h
    by_cases hge : L ≤ pw.length
    · simpa [appendFromDigest, hge] using h
    · have : (pw ++ [all_chars.getD (b % all_chars.length) ' ']).length ≤ L := by
        simp only [List.length_append, List.length_cons, List.length_nil]
        omega
      simpa [appendFromDigest, hge] using ih _ this

theorem appendFromDigest_grow (L : Nat) :
    ∀ (d : List Nat) (pw : List Char), pw.length < L → d ≠ [] →
      pw.length < (appendFromDigest L pw d).length := by
  have mono : ∀ (d : List Nat) (pw : List Char),
      pw.length ≤ (appendFromDigest L pw d).length := by
    intro d
    induction d with
    | nil => intro pw; simp [appendFromDigest]
    | cons b rest ih =>
      intro pw
      by_cases hge : L ≤ pw.length
      · simp [appendFromDigest, hge]
      · have h1 := ih (pw ++ [all_chars.getD (b % all_chars.length) ' '])
        simp only [List.length_append, List.length_cons, List.length_nil] at h1
        simp only [appendFromDigest, hge, if_false]
        omega
  intro d pw hlt hne
  match d with
  | b :: rest =>
    have hge : ¬ L ≤ pw.length := by omega
    have h1 := mono rest (pw ++ [all_chars.getD (b % all_chars.length) ' '])
    simp only [List.length_append, List.length_cons, List.length_nil] at h1
    simp only [appendFromDigest, hge, if_false]
    omega

/-- Step 3: hash-chain extension; each round hashes the key material
concatenated with the current buffer length as a 4-byte big-endian counter. -/
def step3 (key_material : List Nat) (L : Nat) (pw : List Char) : List Char :=
  if h : pw.length < L then
    step3 key_material L
      (appendFromDigest L pw (sha256 (key_material ++ be4 pw.length)))
  else pw
termination_by L - pw.length
decreasing_by
  have hgrow := appendFromDigest_grow L (sha256 (key_material ++ be4 pw.length)) pw h
    (sha256_ne_nil _)
  omega

/-- Python's simultaneous swap
`password[i], password[j] = password[j], password[i]`. -/
def swapAt (l : List Char) (i j : Nat) : List Char :=
  (l.set i (l.getD j ' ')).set j (l.getD i ' ')

/-- Body of the Step 4 loop: swap position `i` with
`key_material[i] % len(password)` when `i` is within the key material. -/
def swapBody (key_material : List Nat) (p : List Char) (i : Nat) : List Char :=
  if i < key_material.length then
    swapAt p i (key_material.getD i 0 % p.length)
  else p

/-- Step 4: deterministic shuffle over `range(len(password))`. -/
def step4 (key_material : List Nat) (pw : List Char) : List Char :=
  (List.range pw.length).foldl (swapBody key_material) pw

/-- Python slice `l[:k]` for a possibly negative `k`. -/
def pySlice (xs : List Char) (k : Int) : List Char :=
  if 0 ≤ k then xs.take k.toNat else xs.take (xs.length - (-k).toNat)

/-- `PasswordGenerator._map_to_password`. -/
def mapToPassword (key_material : List Nat) (length : Int) : List Char :=
  let L := length.toNat
  let s1 := step1 key_material
  let s2 := step2 key_material L s1.1 s1.2
  let s3 := step3 key_material L s2.1
  let s4 := step4 key_material s3
  pySlice s4 length

/-! ### `_generate_pbkdf2` and `generate_password` -/

/-- Byte values of an ASCII string literal (Python `b"..."`). -/
def asciiBytes (s : String) : List Nat := s.data.map Char.toNat

/-- UTF-8 encoding of one character (Python `str.encode()`). -/
def utf8Char (c : Char) : List Nat :=
  let n := c.toNat
  if n < 0x80 then [n]
  else if n < 0x800 then [0xc0 + n / 64, 0x80 + n % 64]
  else if n < 0x10000 then
    [0xe0 + n / 4096, 0x80 + n / 64 % 64, 0x80 + n % 64]
  else
    [0xf0 + n / 262144, 0x80 + n / 4096 % 64, 0x80 + n / 64 % 64, 0x80 + n % 64]

/-- UTF-8 encoding of a string modelled as a character list. -/
def utf8Encode (s : List Char) : List Nat := s.flatMap utf8Char

def DEFAULT_PBKDF2_ITERATIONS : Nat := 200000

/-- The fixed salt: SHA-256 of the byte literal
`b"ForgetYourpassword-v1-salt"`. -/
def fixedSalt : List Nat := sha256 (asciiBytes "ForgetYourpassword-v1-salt")

/-- `PasswordGenerator._generate_pbkdf2`: PBKDF2-HMAC-SHA256, 200,000
iterations, 64 bytes of output, fixed salt. -/
def generatePbkdf2 (input_data : List Char) : List Nat :=
  pbkdf2HmacSha256 (utf8Encode input_data) fixedSalt DEFAULT_PBKDF2_ITERATIONS 64

/-- Python `"|".join(user_keys)`. -/
def pyJoinPipe : List (List Char) → List Char
  | [] => []
  | [x] => x
  | x :: rest => x ++ '|' :: pyJoinPipe rest

/-- `PasswordGenerator.generate_password`: build the combined input
`f"{master_key}|" + "|".join(user_keys)`, derive, and map. -/
def pgGenerate (master_key : List Char) (user_keys : List (List Char))
    (length : Int) : List Char :=
  let combined_input := (master_key ++ ['|']) ++ pyJoinPipe user_keys
  mapToPassword (generatePbkdf2 combined_input) length

/-! ### `PasswordCore.generate_password` (src/core.py)

The hardware fingerprint comes from the external `HardwareDetector`
collaborator; it is passed in as the `fingerprint` argument.  The Python
result dictionary is modelled by `CoreResult`; the `try/except` wrapper is
reflected in the embedding being a total function into this result type. -/

inductive CoreResult where
  | ok (password : List Char) (pwlen : Nat) (source : String) (keys_used : Nat)
  | err (msg : String)
deriving Repr, DecidableEq

def CoreResult.isOk : CoreResult → Bool
  | .ok _ _ _ _ => true
  | .err _ => false

def CoreResult.sourceOf : CoreResult → Option String
  | .ok _ _ s _ => some s
  | .err _ => none

/-- `PasswordCore.generate_password`.  Python truthiness `not master_key`
is emptiness of the string; `not user_keys` is emptiness of the list. -/
def coreGenerate (fingerprint master_key : List Char)
    (user_keys : List (List Char)) (length : Int)
    (use_default_fingerprint : Bool) : CoreResult :=
  if master_key = [] ∧ use_default_fingerprint = false then
    CoreResult.err ("Master key required")
  else if user_keys = [] then
    CoreResult.err ("At least one user key required")
  else
    let final_master_key :=
      if use_default_fingerprint then fingerprint else master_key
    let source :=
      if use_default_fingerprint then "default_fingerprint"
      else "manual_master_key"
    let password := pgGenerate final_master_key user_keys length
    CoreResult.ok password password.length source user_keys.length

/-! ### Helper lemmas about the mapper phases -/

theorem getD_mod_mem (l : List Char) (x : Nat) (hne : l ≠ []) :
    l.getD (x % l.length) ' ' ∈ l := by
  have hlt : x % l.length < l.length :=
    Nat.mod_lt _ (List.length_pos.mpr hne)
  rw [List.getD_eq_getElem?_getD, List.getElem?_eq_getElem hlt]
  exact List.getElem_mem hlt

theorem step1_eq (key_material : List Nat) (hkm : key_material.length = 64) :
    step1 key_material =
      ([UPPERCASE_CHARS.getD (key_material.getD 0 0 % UPPERCASE_CHARS.length) ' ',
        LOWERCASE_CHARS.getD (key_material.getD 1 0 % LOWERCASE_CHARS.length) ' ',
        DIGIT_CHARS.getD (key_material.getD 2 0 % DIGIT_CHARS.length) ' ',
        SYMBOL_CHARS.getD (key_material.getD 3 0 % SYMBOL_CHARS.length) ' '], 4) := by
  simp [step1, char_sets, hkm]

theorem step2_length (key_material : List Nat) (L : Nat) :
    ∀ (n : Nat) (pw : List Char) (ki : Nat),
      key_material.length - ki ≤ n → pw.length ≤ L → ki ≤ key_material.length →
      ((step2 key_material L pw ki).1).length =
        min L (pw.length + (key_material.length - ki)) := by
  intro n
  induction n with
  | zero =>
    intro pw ki hfuel hpw hki
    rw [step2]
    have hc : ¬ (pw.length < L ∧ ki < key_material.length) := by omega
    rw [if_neg hc]
    dsimp only
    omega
  | succ n ih =>
    intro pw ki hfuel hpw hki
    rw [step2]
    by_cases hc : pw.length < L ∧ ki < key_material.length
    · rw [if_pos hc]
      have := ih (pw ++ [all_chars.getD (key_material.getD ki 0 % all_chars.length) ' '])
        (ki + 1) (by omega) (by simp; omega) (by omega)
      rw [this]
      simp only [List.length_append, List.length_cons, List.length_nil]
      omega
    · rw [if_neg hc]
      dsimp only
      omega

theorem step2_mem (key_material : List Nat) (L : Nat) (x : Char) :
    ∀ (n : Nat) (pw : List Char) (ki : Nat),
      key_material.length - ki ≤ n → x ∈ pw →
      x ∈ (step2 key_material L pw ki).1 := by
  intro n
  induction n with
  | zero =>
    intro pw ki hfuel hx
    rw [step2]
    by_cases hc : pw.length < L ∧ ki < key_material.length
    · omega
    · rw [if_neg hc]
      exact hx
  | succ n ih =>
    intro pw ki hfuel hx
    rw [step2]
    by_cases hc : pw.length < L ∧ ki < key_material.length
    · rw [if_pos hc]
      exact ih _ (ki + 1) (by omega) (by simp [hx])
    · rw [if_neg hc]
      exact hx

theorem step3_length (key_material : List Nat) (L : Nat) :
    ∀ (n : Nat) (pw : List Char), L - pw.length ≤ n →
      (step3 key_material L pw).length = max pw.length L := by
  intro n
  induction n with
  | zero =>
    intro pw hfuel
    rw [step3]
    have hc : ¬ pw.length < L := by omega
    rw [dif_neg hc]
    omega
  | succ n ih =>
    intro pw hfuel
    rw [step3]
    by_cases hc : pw.length < L
    · rw [dif_pos hc]
      set pw2 := appendFromDigest L pw (sha256 (key_material ++ be4 pw.length)) with hpw2
      have hgrow : pw.length < pw2.length :=
        appendFromDigest_grow L _ pw hc (sha256_ne_nil _)
      have hle : pw2.length ≤ L :=
        appendFromDigest_length_le L _ pw (by omega)
      have := ih pw2 (by omega)
      rw [this]
      omega
    · rw [dif_neg hc]
      omega

theorem appendFromDigest_mem (L : Nat) (x : Char) :
    ∀ (d : List Nat) (pw : List Char), x ∈ pw → x ∈ appendFromDigest L pw d := by
  intro d
  induction d with
  | nil => intro pw hx; simpa [appendFromDigest] using hx
  | cons b rest ih =>
    intro pw hx
    by_cases hge : L ≤ pw.length
    · simpa [appendFromDigest, hge] using hx
    · simp only [appendFromDigest, hge, if_false]
      exact ih _ (by simp [hx])

theorem step3_mem (key_material : List Nat) (L : Nat) (x : Char) :
    ∀ (n : Nat) (pw : List Char), L - pw.length ≤ n → x ∈ pw →
      x ∈ step3 key_material L pw := by
  intro n
  induction n with
  | zero =>
    intro pw hfuel hx
    rw [step3]
    by_cases hc : pw.length < L
    · omega
    · rw [dif_neg hc]
      exact hx
  | succ n ih =>
    intro pw hfuel hx
    rw [step3]
    by_cases hc : pw.length < L
    · rw [dif_pos hc]
      set pw2 := appendFromDigest L pw (sha256 (key_material ++ be4 pw.length)) with hpw2
      have hgrow : pw.length < pw2.length :=
        appendFromDigest_grow L _ pw hc (sha256_ne_nil _)
      exact ih pw2 (by omega) (appendFromDigest_mem L x _ pw hx)
    · rw [dif_neg hc]
      exact hx

theorem swapAt_length (l : List Char) (i j : Nat) :
    (swapAt l i j).length = l.length := by
  simp [swapAt]

theorem swapBody_length (key_material : List Nat) (p : List Char) (i : Nat) :
    (swapBody key_material p i).length = p.length := by
  unfold swapBody
  by_cases hc : i < key_material.length <;> simp [hc, swapAt_length]

theorem step4_length (key_material : List Nat) (pw : List Char) :
    (step4 key_material pw).length = pw.length := by
  unfold step4
  have main : ∀ (is : List Nat) (p : List Char),
      (is.foldl (swapBody key_material) p).length = p.length := by
    intro is
    induction is with
    | nil => intro p; rfl
    | cons i rest ih =>
      intro p
      simp only [List.foldl_cons]
      rw [ih, swapBody_length]
  exact main _ _

/-- Moving the `m`-th element of a list to the front while writing `a` into
its old slot is a permutation of putting `a` in front. -/
theorem perm_getD_cons_set (a : Char) :
    ∀ (l : List Char) (m : Nat), m < l.length →
      (l.getD m ' ' :: l.set m a).Perm (a :: l) := by
  intro l
  induction l with
  | nil => intro m hm; simp at hm
  | cons b t ih =>
    intro m hm
    match m with
    | 0 =>
      simp only [List.getD_cons_zero, List.set_cons_zero]
      exact List.Perm.swap a b t
    | Nat.succ k =>
      simp only [List.getD_cons_succ, List.set_cons_succ]
      have hk : k < t.length := by
        simp only [List.length_cons] at hm
        omega
      exact (List.Perm.swap b (t.getD k ' ') (t.set k a)).trans
        (((ih k hk).cons b).trans (List.Perm.swap a b t))

/-- The two-write simultaneous swap is a permutation of the original list. -/
theorem swapAt_perm :
    ∀ (l : List Char) (i j : Nat), i < l.length → j < l.length →
      (swapAt l i j).Perm l := by
  intro l
  induction l with
  | nil => intro i j hi _; simp at hi
  | cons a t ih =>
    intro i j hi hj
    match i, j with
    | 0, 0 =>
      simp [swapAt]
    | 0, Nat.succ m =>
      have hm : m < t.length := by
        simp only [List.length_cons] at hj
        omega
      simp only [swapAt, List.getD_cons_succ, List.set_cons_zero,
        List.set_cons_succ, List.getD_cons_zero]
      exact perm_getD_cons_set a t m hm
    | Nat.succ n, 0 =>
      have hn : n < t.length := by
        simp only [List.length_cons] at hi
        omega
      simp only [swapAt, List.getD_cons_zero, List.getD_cons_succ,
        List.set_cons_succ, List.set_cons_zero]
      exact perm_getD_cons_set a t n hn
    | Nat.succ n, Nat.succ m =>
      have hn : n < t.length := by
        simp only [List.length_cons] at hi
        omega
      have hm : m < t.length := by
        simp only [List.length_cons] at hj
        omega
      simp only [swapAt, List.getD_cons_succ, List.set_cons_succ]
      exact (ih n m hn hm).cons a

theorem swapBody_perm (key_material : List Nat) (p : List Char) (i : Nat)
    (hi : i < p.length) : (swapBody key_material p i).Perm p := by
  unfold swapBody
  by_cases hc : i < key_material.length
  · rw [if_pos hc]
    have hpos : 0 < p.length := by omega
    exact swapAt_perm p i _ hi (Nat.mod_lt _ hpos)
  · rw [if_neg hc]

theorem step4_perm (key_material : List Nat) (pw : List Char) :
    (step4 key_material pw).Perm pw := by
  unfold step4
  have main : ∀ (is : List Nat) (p : List Char), (∀ i ∈ is, i < p.length) →
      (is.foldl (swapBody key_material) p).Perm p := by
    intro is
    induction is with
    | nil => intro p _; rfl
    | cons i rest ih =>
      intro p hmem
      simp only [List.foldl_cons]
      have h1 : (swapBody key_material p i).Perm p :=
        swapBody_perm key_material p i (hmem i (by simp))
      have hlen : (swapBody key_material p i).length = p.length :=
        swapBody_length key_material p i
      have h2 := ih (swapBody key_material p i)
        (fun i2 hi2 => by rw [hlen]; exact hmem i2 (by simp [hi2]))
      exact h2.trans h1
  exact main _ _ (fun i hi => List.mem_range.mp hi)

/-- Combined length of the Phase A-D buffer before truncation. -/
theorem buffer_length (key_material : List Nat) (L : Nat)
    (hkm : key_material.length = 64) (hL : 4 ≤ L) :
    (step4 key_material (step3 key_material L
      (step2 key_material L (step1 key_material).1 (step1 key_material).2).1)).length
      = L := by
  rw [step1_eq key_material hkm]
  have h2 := step2_length key_material L (key_material.length - 4)
    [UPPERCASE_CHARS.getD (key_material.getD 0 0 % UPPERCASE_CHARS.length) ' ',
     LOWERCASE_CHARS.getD (key_material.getD 1 0 % LOWERCASE_CHARS.length) ' ',
     DIGIT_CHARS.getD (key_material.getD 2 0 % DIGIT_CHARS.length) ' ',
     SYMBOL_CHARS.getD (key_material.getD 3 0 % SYMBOL_CHARS.length) ' '] 4
    (by omega) (by simp only [List.length_cons, List.length_nil]; omega) (by omega)
  rw [step4_length, step3_length key_material L L _ (by omega), h2]
  simp only [List.length_cons, List.length_nil]
  omega

/-- For `4 ≤ length` the final slice is the identity: the Phase A-D buffer
already has exactly `length` characters. -/
theorem mapToPassword_eq_buffer (key_material : List Nat) (length : Int)
    (hkm : key_material.length = 64) (h4 : 4 ≤ length) :
    mapToPassword key_material length =
      step4 key_material (step3 key_material length.toNat
        (step2 key_material length.toNat
          (step1 key_material).1 (step1 key_material).2).1) := by
  have hbuf := buffer_length key_material length.toNat hkm (by omega)
  unfold mapToPassword pySlice
  rw [if_pos (by omega : (0 : Int) ≤ length)]
  exact List.take_of_length_le (le_of_eq hbuf)

/-! ### Claim theorems -/

/-- Claim C1: for every `length` in `[8, 128]` and every 64-byte key
material, `_map_to_password` returns a string of exactly `length`
characters. -/
theorem password_mapper_length_contract (key_material : List Nat) (length : Int)
    (hkm : key_material.length = 64) (h8 : 8 ≤ length) (h128 : length ≤ 128) :
    ((mapToPassword key_material length).length : Int) = length := by
  rw [mapToPassword_eq_buffer key_material length hkm (by omega)]
  rw [buffer_length key_material length.toNat hkm (by omega)]
  omega

/-- Witness for C1 at `length = 8` with a concrete 64-byte key material. -/
theorem password_mapper_length_contract_witness :
    (List.replicate 64 0).length = 64 ∧ (8 : Int) ≤ 8 ∧ (8 : Int) ≤ 128 ∧
      ((mapToPassword (List.replicate 64 0) 8).length : Int) = 8 :=
  ⟨by decide, by decide, by decide,
   password_mapper_length_contract (List.replicate 64 0) 8 (by decide)
     (by decide) (by decide)⟩

/-- Claim C2: for `length ≥ 4` and 64-byte key material, the output contains
at least one uppercase letter, one lowercase letter, one digit, and one
symbol from the fixed symbol set. -/
theorem password_mapper_class_coverage (key_material : List Nat) (length : Int)
    (hkm : key_material.length = 64) (h4 : 4 ≤ length) :
    (∃ c ∈ mapToPassword key_material length, c ∈ UPPERCASE_CHARS) ∧
    (∃ c ∈ mapToPassword key_material length, c ∈ LOWERCASE_CHARS) ∧
    (∃ c ∈ mapToPassword key_material length, c ∈ DIGIT_CHARS) ∧
    (∃ c ∈ mapToPassword key_material length, c ∈ SYMBOL_CHARS) := by
  have heq := mapToPassword_eq_buffer key_material length hkm h4
  have h1 := step1_eq key_material hkm
  have hmem : ∀ x : Char,
      x ∈ (step1 key_material).1 → x ∈ mapToPassword key_material length := by
    intro x hx
    rw [heq]
    refine ((step4_perm key_material _).mem_iff).mpr ?_
    refine step3_mem key_material length.toNat x length.toNat _ (by omega) ?_
    exact step2_mem key_material length.toNat x key_material.length _ _
      (by omega) hx
  have hu : UPPERCASE_CHARS.getD (key_material.getD 0 0 % UPPERCASE_CHARS.length) ' '
      ∈ (step1 key_material).1 := by rw [h1]; simp
  have hlo : LOWERCASE_CHARS.getD (key_material.getD 1 0 % LOWERCASE_CHARS.length) ' '
      ∈ (step1 key_material).1 := by rw [h1]; simp
  have hd : DIGIT_CHARS.getD (key_material.getD 2 0 % DIGIT_CHARS.length) ' '
      ∈ (step1 key_material).1 := by rw [h1]; simp
  have hs : SYMBOL_CHARS.getD (key_material.getD 3 0 % SYMBOL_CHARS.length) ' '
      ∈ (step1 key_material).1 := by rw [h1]; simp
  exact ⟨⟨_, hmem _ hu, getD_mod_mem UPPERCASE_CHARS _ (by decide)⟩,
         ⟨_, hmem _ hlo, getD_mod_mem LOWERCASE_CHARS _ (by decide)⟩,
         ⟨_, hmem _ hd, getD_mod_mem DIGIT_CHARS _ (by decide)⟩,
         ⟨_, hmem _ hs, getD_mod_mem SYMBOL_CHARS _ (by decide)⟩⟩

/-- Witness for C2 at `length = 4` with a concrete 64-byte key material. -/
theorem password_mapper_class_coverage_witness :
    (List.replicate 64 7).length = 64 ∧ (4 : Int) ≤ 4 ∧
      ((∃ c ∈ mapToPassword (List.replicate 64 7) 4, c ∈ UPPERCASE_CHARS) ∧
       (∃ c ∈ mapToPassword (List.replicate 64 7) 4, c ∈ LOWERCASE_CHARS) ∧
       (∃ c ∈ mapToPassword (List.replicate 64 7) 4, c ∈ DIGIT_CHARS) ∧
       (∃ c ∈ mapToPassword (List.replicate 64 7) 4, c ∈ SYMBOL_CHARS)) :=
  ⟨by decide, by decide,
   password_mapper_class_coverage (List.replicate 64 7) 4 (by decide) (by decide)⟩

theorem pyJoinPipe_eq_intercalate :
    ∀ user_keys : List (List Char),
      pyJoinPipe user_keys = List.intercalate ['|'] user_keys := by
  intro ks
  induction ks with
  | nil => simp [pyJoinPipe, List.intercalate, List.intersperse]
  | cons x rest ih =>
    cases rest with
    | nil => simp [pyJoinPipe, List.intercalate, List.intersperse]
    | cons y t =>
      show x ++ '|' :: pyJoinPipe (y :: t) = _
      rw [ih]
      simp [List.intercalate, List.intersperse]

/-- Claim C4: the combined input fed to the key deriver is the secret
source, then a single pipe, then the keywords joined with pipes in order,
with keyword contents used verbatim. -/
theorem combined_input_shape (master_key : List Char)
    (user_keys : List (List Char)) (length : Int) (hne : user_keys ≠ []) :
    pgGenerate master_key user_keys length =
      mapToPassword
        (generatePbkdf2 (master_key ++ ['|'] ++ List.intercalate ['|'] user_keys))
        length := by
  unfold pgGenerate
  rw [pyJoinPipe_eq_intercalate]

/-- Witness for C4 on a concrete non-empty keyword list. -/
theorem combined_input_shape_witness :
    ([['b'], ['c', '|', 'd']] : List (List Char)) ≠ [] ∧
      pgGenerate ['a'] [['b'], ['c', '|', 'd']] 16 =
        mapToPassword
          (generatePbkdf2
            (['a'] ++ ['|'] ++ List.intercalate ['|'] [['b'], ['c', '|', 'd']]))
          16 :=
  ⟨by decide, combined_input_shape ['a'] [['b'], ['c', '|', 'd']] 16 (by decide)⟩

/-- Claim C6: with a 64-byte key material and a buffer of `length`
characters, Phase D swaps position `i` with `key_material[i] mod length`
for each `i < 64`, and indices `i ≥ 64` perform no swap. -/
theorem phase_d_permutation (key_material : List Nat) (pw : List Char) (L : Nat)
    (hkm : key_material.length = 64) (h4 : 4 ≤ L) (hpw : pw.length = L) :
    step4 key_material pw =
      (List.range L).foldl
        (fun p i =>
          if i < 64 then swapAt p i (key_material.getD i 0 % L) else p)
        pw := by
  have main : ∀ (is : List Nat) (p : List Char), p.length = L →
      is.foldl (swapBody key_material) p =
        is.foldl
          (fun p i =>
            if i < 64 then swapAt p i (key_material.getD i 0 % L) else p)
          p := by
    intro is
    induction is with
    | nil => intro p _; rfl
    | cons i rest ih =>
      intro p hp
      simp only [List.foldl_cons]
      have hbody : swapBody key_material p i =
          if i < 64 then swapAt p i (key_material.getD i 0 % L) else p := by
        unfold swapBody
        rw [hkm, hp]
      rw [hbody]
      refine ih _ ?_
      by_cases hc : i < 64
      · rw [if_pos hc, swapAt_length, hp]
      · rw [if_neg hc, hp]
  unfold step4
  rw [hpw]
  exact main _ pw hpw

/-- Witness for C6 on a concrete key material and buffer. -/
theorem phase_d_permutation_witness :
    (List.replicate 64 1).length = 64 ∧ 4 ≤ 4 ∧
      (['a', 'b', 'c', 'd'] : List Char).length = 4 ∧
      step4 (List.replicate 64 1) ['a', 'b', 'c', 'd'] =
        (List.range 4).foldl
          (fun p i =>
            if i < 64 then swapAt p i ((List.replicate 64 1).getD i 0 % 4) else p)
          ['a', 'b', 'c', 'd'] :=
  ⟨by decide, by decide, by decide,
   phase_d_permutation (List.replicate 64 1) ['a', 'b', 'c', 'd'] 4
     (by decide) (by decide) (by decide)⟩

/-- The hash-chain extension as the specification words it: in each round,
take as many digest bytes as the buffer still needs (up to the whole
32-byte digest), map them through the combined alphabet, and recompute the
digest with the new buffer length as the counter. -/
def chainExtendSpec (key_material : List Nat) (L : Nat) (pw : List Char) :
    List Char :=
  if h : pw.length < L then
    chainExtendSpec key_material L
      (pw ++ ((sha256 (key_material ++ be4 pw.length)).take (L - pw.length)).map
        (fun b => all_chars.getD (b % all_chars.length) ' '))
  else pw
termination_by L - pw.length
decreasing_by
  simp only [List.length_append, List.length_map, List.length_take, sha256_length]
  omega

theorem appendFromDigest_eq_take_map (L : Nat) :
    ∀ (d : List Nat) (pw : List Char),
      appendFromDigest L pw d =
        pw ++ (d.take (L - pw.length)).map
          (fun b => all_chars.getD (b % all_chars.length) ' ') := by
  intro d
  induction d with
  | nil => intro pw; simp [appendFromDigest]
  | cons b rest ih =>
    intro pw
    by_cases hge : L ≤ pw.length
    · have h0 : L - pw.length = 0 := by omega
      simp [appendFromDigest, hge, h0]
    · have h1 : L - pw.length = (L - (pw.length + 1)) + 1 := by omega
      simp only [appendFromDigest, hge, if_false]
      rw [ih]
      simp only [List.length_append, List.length_cons, List.length_nil, h1,
        List.take_succ_cons, List.map_cons, List.append_assoc,
        List.singleton_append]

/-- Claim C5: the Step 3 extension loop equals the spec's recursion — the
counter hashed in each round is the buffer length so far, the digest bytes
are consumed `mod 94` into the combined alphabet, and the digest is
recomputed from the new buffer length once exhausted. -/
theorem hash_chain_extension_spec (key_material : List Nat) (L : Nat)
    (pw : List Char) :
    step3 key_material L pw = chainExtendSpec key_material L pw := by
  have main : ∀ (n : Nat) (pw : List Char), L - pw.length ≤ n →
      step3 key_material L pw = chainExtendSpec key_material L pw := by
    intro n
    induction n with
    | zero =>
      intro pw hfuel
      have hc : ¬ pw.length < L := by omega
      rw [step3, chainExtendSpec, dif_neg hc, dif_neg hc]
    | succ n ih =>
      intro pw hfuel
      by_cases hc : pw.length < L
      · rw [step3, chainExtendSpec, dif_pos hc, dif_pos hc,
          appendFromDigest_eq_take_map]
        apply ih
        simp only [List.length_append, List.length_map, List.length_take,
          sha256_length]
        omega
      · rw [step3, chainExtendSpec, dif_neg hc, dif_neg hc]
  exact main L pw (by omega)

/-- Claim C3: the key deriver is PBKDF2-HMAC-SHA256 with 200,000 iterations
and the fixed salt `SHA256(b"ForgetYourpassword-v1-salt")`, and its output
is exactly 64 bytes for every input string. -/
theorem key_deriver_contract (input_data : List Char) :
    generatePbkdf2 input_data =
      pbkdf2HmacSha256 (utf8Encode input_data)
        (sha256 (asciiBytes "ForgetYourpassword-v1-salt")) 200000 64 ∧
    (generatePbkdf2 input_data).length = 64 := by
  constructor
  · rfl
  · exact pbkdf2HmacSha256_length_64 _ _ _

/-! ### Core orchestrator claims -/

theorem generatePbkdf2_length (input_data : List Char) :
    (generatePbkdf2 input_data).length = 64 :=
  pbkdf2HmacSha256_length_64 _ _ _

theorem step2_zero (key_material : List Nat) (pw : List Char) (ki : Nat) :
    step2 key_material 0 pw ki = (pw, ki) := by
  rw [step2]
  simp

theorem step3_zero (key_material : List Nat) (pw : List Char) :
    step3 key_material 0 pw = pw := by
  rw [step3]
  simp

theorem mapToPassword_zero (key_material : List Nat) :
    mapToPassword key_material 0 = [] := by
  unfold mapToPassword pySlice
  rw [if_pos (by omega : (0 : Int) ≤ 0)]
  simp

theorem mapToPassword_nonpos_length (key_material : List Nat) (length : Int)
    (hkm : key_material.length = 64) (hlen : length ≤ 0) :
    (mapToPassword key_material length).length ≤ 4 := by
  have hL : length.toNat = 0 := by omega
  unfold mapToPassword
  dsimp only
  rw [hL, step2_zero, step3_zero]
  have hbuf : (step4 key_material (step1 key_material).1).length = 4 := by
    rw [step4_length, step1_eq key_material hkm]
    rfl
  unfold pySlice
  by_cases hpos : (0 : Int) ≤ length
  · rw [if_pos hpos]
    calc (List.take length.toNat (step4 key_material (step1 key_material).1)).length
        ≤ (step4 key_material (step1 key_material).1).length :=
          by rw [List.length_take]; omega
      _ = 4 := hbuf
  · rw [if_neg hpos]
    calc (List.take ((step4 key_material (step1 key_material).1).length - (-length).toNat)
            (step4 key_material (step1 key_material).1)).length
        ≤ (step4 key_material (step1 key_material).1).length :=
          by rw [List.length_take]; omega
      _ = 4 := hbuf

/-- Counterexample to claim C7: with valid secret and keywords but
`length = 0`, the orchestrator returns a *success* carrying the empty
password — no `InvalidLength` failure occurs anywhere in the code. -/
theorem core_invalid_length_counterexample :
    coreGenerate ['f'] ['m'] [['k']] 0 true =
      CoreResult.ok [] 0 "default_fingerprint" 1 := by
  unfold coreGenerate
  rw [if_neg (by simp), if_neg (by simp)]
  simp only [if_pos rfl]
  unfold pgGenerate
  rw [mapToPassword_zero]
  rfl

/-- Claim C7 as amended: the core performs no length validation, in either
secret mode.  For `length ≤ 0`, with a valid secret (fingerprint mode, or a
non-empty manual master key) and a non-empty keyword list, it returns a
structured success whose password is the Phase-A buffer truncated by
Python slice semantics, hence at most 4 characters long. -/
theorem core_no_length_validation (fingerprint master_key : List Char)
    (user_keys : List (List Char)) (length : Int)
    (use_default_fingerprint : Bool)
    (hsecret : ¬ (master_key = [] ∧ use_default_fingerprint = false))
    (hks : user_keys ≠ []) (hlen : length ≤ 0) :
    ∃ pw : List Char,
      coreGenerate fingerprint master_key user_keys length
          use_default_fingerprint =
        CoreResult.ok pw pw.length
          (if use_default_fingerprint then "default_fingerprint"
           else "manual_master_key")
          user_keys.length ∧
      pw.length ≤ 4 := by
  refine ⟨pgGenerate (if use_default_fingerprint then fingerprint else master_key)
    user_keys length, ?_, ?_⟩
  · unfold coreGenerate
    rw [if_neg hsecret, if_neg hks]
  · unfold pgGenerate
    exact mapToPassword_nonpos_length _ length (generatePbkdf2_length _) hlen

/-- Witness for the amended C7 at `length = 0` in manual-master-key mode. -/
theorem core_no_length_validation_witness :
    ¬ ((['m'] : List Char) = [] ∧ (false : Bool) = false) ∧
      ([['k']] : List (List Char)) ≠ [] ∧ (0 : Int) ≤ 0 ∧
      ∃ pw : List Char,
        coreGenerate ['f'] ['m'] [['k']] 0 false =
          CoreResult.ok pw pw.length
            (if (false : Bool) then "default_fingerprint"
             else "manual_master_key") 1 ∧
        pw.length ≤ 4 :=
  ⟨by decide, by decide, by decide,
   core_no_length_validation ['f'] ['m'] [['k']] 0 false (by decide) (by decide)
     (by decide)⟩

/-- Counterexample to claim C8: a keyword list whose sole entry is the
empty string is *accepted* — the core does no trimming, so the result is a
success, not a `MissingKeywords` failure. -/
theorem core_empty_string_keyword_counterexample :
    (coreGenerate ['f'] ['m'] [[]] 32 true).isOk = true := by
  unfold coreGenerate
  rw [if_neg (by simp), if_neg (by simp)]
  rfl

/-- Claim C8 as amended: in either secret mode, provided the secret is
valid (fingerprint mode, or a non-empty manual master key), the
`MissingKeywords`-style failure (message `"At least one user key
required"`) occurs exactly when the keyword list is literally empty;
entries that are empty (or whitespace-only) strings are not rejected,
because the core never trims. -/
theorem core_missing_keywords_iff (fingerprint master_key : List Char)
    (user_keys : List (List Char)) (length : Int)
    (use_default_fingerprint : Bool)
    (hsecret : ¬ (master_key = [] ∧ use_default_fingerprint = false)) :
    coreGenerate fingerprint master_key user_keys length
        use_default_fingerprint =
        CoreResult.err ("At least one user key required") ↔
      user_keys = [] := by
  unfold coreGenerate
  rw [if_neg hsecret]
  by_cases hks : user_keys = []
  · rw [if_pos hks]
    simp [hks]
  · rw [if_neg hks]
    simp [hks]

/-- Witness for the amended C8 in manual-master-key mode with an empty
keyword list. -/
theorem core_missing_keywords_iff_witness :
    ¬ ((['m'] : List Char) = [] ∧ (false : Bool) = false) ∧
      (coreGenerate ['f'] ['m'] ([] : List (List Char)) 32 false =
          CoreResult.err ("At least one user key required") ↔
        ([] : List (List Char)) = []) :=
  ⟨by decide, core_missing_keywords_iff ['f'] ['m'] [] 32 false (by decide)⟩

/-- Claim C9: the orchestrator always returns a structured result — a
failure with a message, or a success carrying the password together with
its length, the secret-source tag, and the keyword count.  (The Python
`try/except` that guarantees no exception escapes is reflected in the
embedding being a total function into `CoreResult`.) -/
theorem core_structured_result (fingerprint master_key : List Char)
    (user_keys : List (List Char)) (length : Int)
    (use_default_fingerprint : Bool) :
    (∃ msg, coreGenerate fingerprint master_key user_keys length
        use_default_fingerprint = CoreResult.err msg) ∨
    (∃ pw src, coreGenerate fingerprint master_key user_keys length
        use_default_fingerprint = CoreResult.ok pw pw.length src user_keys.length ∧
      (src = "default_fingerprint" ∨ src = "manual_master_key")) := by
  unfold coreGenerate
  by_cases h1 : master_key = [] ∧ use_default_fingerprint = false
  · rw [if_pos h1]
    exact Or.inl ⟨_, rfl⟩
  · rw [if_neg h1]
    by_cases h2 : user_keys = []
    · rw [if_pos h2]
      exact Or.inl ⟨_, rfl⟩
    · rw [if_neg h2]
      refine Or.inr ⟨_, _, rfl, ?_⟩
      cases use_default_fingerprint
      · exact Or.inr rfl
      · exact Or.inl rfl

/-- Claim C10: in fingerprint mode the result never depends on the supplied
master key, and the reported source is `"default_fingerprint"` whenever a
source is reported at all. -/
theorem core_fingerprint_mode_independence (fingerprint mk1 mk2 : List Char)
    (user_keys : List (List Char)) (length : Int) :
    coreGenerate fingerprint mk1 user_keys length true =
        coreGenerate fingerprint mk2 user_keys length true ∧
    ((coreGenerate fingerprint mk1 user_keys length true).sourceOf = none ∨
     (coreGenerate fingerprint mk1 user_keys length true).sourceOf =
        some "default_fingerprint") := by
  unfold coreGenerate
  by_cases h2 : user_keys = []
  · simp [h2, CoreResult.sourceOf]
  · simp [h2, CoreResult.sourceOf]

end FYP
